import Mathlib

/-!
Verification of pyannote-metrics segmentation metrics
(src/pyannote/metrics/segmentation.py).

Shallow embedding conventions:
* timestamps are exact rationals (ℚ) standing for the Python floats;
* a segment is a pair (start, end) : ℚ × ℚ;
* a Timeline is a list of segments in its iteration (sorted) order;
* an Annotation is a list of (segment, label) pairs;
* the numpy "inf" sentinel of the boundary matcher is the top element of
  WithTop ℚ;
* a Python exception is modelled as the value none of an Option result.
-/

namespace PyannoteSeg

/-- A pyannote `Segment`: (start, end). -/
abbrev Seg := ℚ × ℚ

/-- A labelled segment collection (pyannote `Annotation`), labels as naturals. -/
abbrev Ann := List (Seg × ℕ)

/-! ## Boundary matcher (SegmentationPrecision / SegmentationRecall)

Embeds `SegmentationPrecision._get_details`, `_get_rate` and
`SegmentationRecall._get_details` from segmentation.py. -/

/-- `[segment.end for segment in timeline][:-1]`: the boundary list the code
feeds to the matcher (all segment end times except the last one). -/
def codeBoundaries (tl : List Seg) : List ℚ :=
  (tl.map Prod.snd).dropLast

/-- The N×M matrix `delta[r, h] = abs(refBoundary - hypBoundary)` stored in
row-major (numpy C) order, exactly the flattening `np.argmin` works on. -/
def buildDelta : List ℚ → List ℚ → List ℚ
  | [], _ => []
  | rb :: rbs, hypB => (hypB.map fun hb => |rb - hb|) ++ buildDelta rbs hypB

/-- `delta[np.where(delta > tolerance)] = np.inf`: entries strictly greater
than the tolerance become the unmatchable sentinel ⊤. -/
def maskTol (tol : ℚ) (d : List ℚ) : List (WithTop ℚ) :=
  d.map fun x => if tol < x then ⊤ else (x : WithTop ℚ)

/-- `np.amin` over the (flattened) matrix; the empty matrix never reaches the
loop, so the default ⊤ is unobservable there. -/
def aminL : List (WithTop ℚ) → WithTop ℚ
  | [] => ⊤
  | x :: xs => min x (aminL xs)

/-- `np.argmin` over the row-major flattened matrix: the first (lowest) flat
index attaining the minimum, per numpy's documented first-occurrence rule. -/
def argminL : List (WithTop ℚ) → ℕ
  | [] => 0
  | x :: xs => if x ≤ aminL xs then 0 else argminL xs + 1

/-- `delta[i, :] = np.inf; delta[:, j] = np.inf` on the row-major flattening:
flat cell `k` (at running offset `s`) lies in row `(s+k) / M` and column
`(s+k) % M`. Called with offset 0. -/
def maskRC (M i j : ℕ) : ℕ → List (WithTop ℚ) → List (WithTop ℚ)
  | _, [] => []
  | s, x :: xs => (if s / M = i ∨ s % M = j then ⊤ else x) :: maskRC M i j (s + 1) xs

/-- The masked distance matrix the loop starts from: `delta` built from the
boundary lists, with every entry beyond the tolerance replaced by ⊤. -/
def deltaMatrix (tol : ℚ) (refB hypB : List ℚ) : List (WithTop ℚ) :=
  maskTol tol (buildDelta refB hypB)

/-- Flat positions still holding a finite (matchable) entry. -/
def finiteCells (d : List (WithTop ℚ)) : Finset ℕ :=
  (Finset.range d.length).filter fun k => d.getD k ⊤ ≠ ⊤

/-- Number of finite entries: the strictly decreasing measure of the greedy
extraction loop, used as fuel for it. -/
def countFinite (d : List (WithTop ℚ)) : ℕ :=
  (finiteCells d).card

/-- The `while h < np.inf` greedy extraction loop: pick the flat argmin `k`,
match row `i = k / M` with column `j = k % M` (Python 2 integer division, as
the source runs under), mask that row and column, repeat. Fuel-indexed;
`none` means the fuel ran out with matchable entries left, which never
happens with fuel `countFinite` (proved below). -/
def matchLoopFuel (M : ℕ) : ℕ → List (WithTop ℚ) → ℕ → Option ℕ
  | 0, d, n => if aminL d < ⊤ then none else some n
  | fuel + 1, d, n =>
    if aminL d < ⊤ then
      matchLoopFuel M fuel (maskRC M (argminL d / M) (argminL d % M) 0 d) (n + 1)
    else some n

/-- The detail record of precision/recall: `PR_BOUNDARIES` (an integer, the
code computes `len(hypothesis) - 1` which can be -1) and `PR_MATCHES`. -/
structure Detail where
  boundaries : ℤ
  nMatches : ℕ
deriving DecidableEq

/-- `SegmentationPrecision._get_details`. Mirrors the source: N and M are the
segment counts minus one; the `M == 0 or N == 0` corner case returns zero
matches; otherwise the boundary lists are the segment ends minus the last one
and the greedy loop runs on the masked distance matrix. `none` models the
`ValueError` numpy raises from `np.zeros((N, M))` when a dimension is
negative (empty timeline that escapes the corner-case guard). -/
def getDetails (tol : ℚ) (reference hypothesis : List Seg) : Option Detail :=
  let N : ℤ := (reference.length : ℤ) - 1
  let M : ℤ := (hypothesis.length : ℤ) - 1
  if M = 0 ∨ N = 0 then some ⟨M, 0⟩
  else if N < 0 ∨ M < 0 then none
  else
    let refB := codeBoundaries reference
    let hypB := codeBoundaries hypothesis
    let delta := deltaMatrix tol refB hypB
    (matchLoopFuel hypB.length (countFinite delta) delta 0).map fun n => ⟨M, n⟩

/-- `SegmentationPrecision._get_rate`: `numerator / denominator`, except that
a zero denominator yields 1.0 when the numerator is 0 and raises `ValueError`
(modelled as `none`) otherwise. -/
def getRate (d : Detail) : Option ℚ :=
  if d.boundaries = 0 then (if d.nMatches = 0 then some 1 else none)
  else some ((d.nMatches : ℚ) / (d.boundaries : ℚ))

/-- Precision rate: details then rate. -/
def precisionRate (tol : ℚ) (reference hypothesis : List Seg) : Option ℚ :=
  (getDetails tol reference hypothesis).bind getRate

/-- `SegmentationRecall._get_details`: the precision computation with the two
arguments swapped. -/
def recallDetails (tol : ℚ) (reference hypothesis : List Seg) : Option Detail :=
  getDetails tol hypothesis reference

/-- Recall rate. -/
def recallRate (tol : ℚ) (reference hypothesis : List Seg) : Option ℚ :=
  (recallDetails tol reference hypothesis).bind getRate

/-- The doctest reference timeline [0,1],[1,2],[2,4]. -/
def refEx : List Seg := [(0, 1), (1, 2), (2, 4)]

/-- The doctest hypothesis timeline [0,1],[1,2],[2,3],[3,4]. -/
def hypEx : List Seg := [(0, 1), (1, 2), (2, 3), (3, 4)]

/-- Invariant of the greedy loop for C1: every cell of the working matrix is
either the sentinel ⊤ or its original distance value, which is then at most
the tolerance. -/
def CellsInv (tol : ℚ) (base : List ℚ) (d : List (WithTop ℚ)) : Prop :=
  d.length = base.length ∧
    ∀ k, d.getD k ⊤ = ⊤ ∨
      (d.getD k ⊤ = ((base.getD k 0 : ℚ) : WithTop ℚ) ∧ base.getD k 0 ≤ tol)

/-- Cell-wise relation for the tolerance-monotonicity argument (C9): the
matrix at the smaller tolerance `c` agrees with the one at the larger
tolerance on every cell at most `c`, and elsewhere it is ⊤ while the other
cell exceeds `c`. -/
def Rel (c : ℚ) (a b : WithTop ℚ) : Prop :=
  (a ≤ (c : WithTop ℚ) → b = a) ∧ (¬ a ≤ (c : WithTop ℚ) → a = ⊤ ∧ ¬ b ≤ (c : WithTop ℚ))

/-- Modelled from the spec: the Boundary Matcher input the design describes,
"all interval endpoints of the structure except the very first start and
very last end, in increasing time order" (spec §4.4 and glossary). Only used
to compare against `codeBoundaries`; the source feeds the matcher
`codeBoundaries` instead. -/
def specInteriorBoundaries (tl : List Seg) : List ℚ :=
  ((((tl.map Prod.fst) ++ (tl.map Prod.snd)).dedup.insertionSort (· ≤ ·)).drop 1).dropLast

/-- A contiguous (gapless) segmentation: nondegenerate segments, each one
starting exactly where the previous one ends. -/
def Contiguous : List Seg → Prop
  | [] => True
  | [s] => s.1 < s.2
  | s :: t :: rest => s.1 < s.2 ∧ s.2 = t.1 ∧ Contiguous (t :: rest)

/-! ## Coverage / purity pipeline (SegmentationCoverage / SegmentationPurity)

Embeds `SegmentationCoverage._preprocess`, `_partition`, `_process`,
`_get_details`, `_get_rate` and `SegmentationPurity._get_details`.
The `pyannote.core` collaborator operations (sorted iteration, `gaps()`,
`coverage()`, `crop(..., mode='intersection')`, `get_timeline()`,
label extraction, the co-occurrence matrix `*` and `anonymize_tracks()`)
are modelled from the spec's interface description (spec §3, §6): coverage
merges overlapping or touching segments into an envelope, gaps are the holes
between consecutive envelope segments, intersection-crop keeps overlapping
portions truncated, discarding zero-length remainders, and `anonymize_tracks`
makes atoms individually addressable, so a partition is just its atom list. -/

/-- Segment order used by the sorted collections: by start, then by end. -/
def segLe (a b : Seg) : Prop :=
  a.1 < b.1 ∨ (a.1 = b.1 ∧ a.2 ≤ b.2)

instance : DecidableRel segLe := fun a b =>
  inferInstanceAs (Decidable (a.1 < b.1 ∨ (a.1 = b.1 ∧ a.2 ≤ b.2)))

/-- A Timeline iterates its segments in sorted order. -/
def sortSegs (l : List Seg) : List Seg :=
  l.insertionSort segLe

/-- Merge pass of `coverage()` over a sorted segment list: extend the current
envelope segment while the next one overlaps or touches it. -/
def mergeGo : Seg → List Seg → List Seg
  | cur, [] => [cur]
  | cur, s :: rest =>
    if s.1 ≤ cur.2 then mergeGo (cur.1, max cur.2 s.2) rest else cur :: mergeGo s rest

/-- `Timeline.coverage()`: merged non-overlapping envelope. -/
def mergeCoverage (l : List Seg) : List Seg :=
  match sortSegs l with
  | [] => []
  | s :: rest => mergeGo s rest

/-- Holes between consecutive envelope segments. -/
def gapsGo : List Seg → List Seg
  | s :: t :: rest => (s.2, t.1) :: gapsGo (t :: rest)
  | _ => []

/-- `Timeline.gaps()`: the complementary intervals strictly between
consecutive members of the coverage. -/
def gapsOf (tl : List Seg) : List Seg :=
  gapsGo (mergeCoverage tl)

/-- `Annotation.labels()`: the distinct labels. -/
def labelsOf (ann : Ann) : List ℕ :=
  (ann.map Prod.snd).dedup

/-- `Annotation.label_timeline(label)`: the sub-collection bearing a label. -/
def labelTimeline (ann : Ann) (l : ℕ) : List Seg :=
  sortSegs ((ann.filter fun e => e.2 == l).map Prod.fst)

/-- The gap-filling step of `_preprocess` for one label: add every gap whose
duration is strictly below the tolerance back into the label's
sub-collection, then take its coverage. -/
def fillLabel (tol : ℚ) (tl : List Seg) : List Seg :=
  mergeCoverage (tl ++ (gapsOf tl).filter fun g => decide (g.2 - g.1 < tol))

/-- Intersection of two segments (possibly empty, i.e. degenerate). -/
def segInter (a b : Seg) : Seg :=
  (max a.1 b.1, min a.2 b.2)

/-- Crop one segment to a coverage region in intersection mode, discarding
zero-length remainders. -/
def cropSeg (cov : List Seg) (s : Seg) : List Seg :=
  (cov.map (segInter s)).filter fun t => decide (t.1 < t.2)

/-- `crop(coverage, mode='intersection')` of a segment list. -/
def cropT (tl cov : List Seg) : List Seg :=
  (tl.map (cropSeg cov)).flatten

/-- The sorted set of all start/end timestamps of a collection
(`boundaries` in `_partition`). -/
def boundariesOf (tl : List Seg) : List ℚ :=
  ((tl.map Prod.fst) ++ (tl.map Prod.snd)).dedup.insertionSort (· ≤ ·)

/-- `pairwise(sorted(boundaries))`: one atomic segment per consecutive pair
of distinct timestamps. -/
def pairwiseSegs : List ℚ → List Seg
  | a :: b :: rest => (a, b) :: pairwiseSegs (b :: rest)
  | _ => []

/-- `SegmentationCoverage._partition`: atomic intervals from the boundary
set, cropped to the coverage region; after `anonymize_tracks()` each atom is
individually addressable, so the partition is its atom list. -/
def partitionT (tl cov : List Seg) : List Seg :=
  cropT (pairwiseSegs (boundariesOf tl)) cov

/-- `SegmentationCoverage._preprocess`: gap-fill the reference per label,
take the filled coverage as the common region, and partition both structures
against it. -/
def preprocess (tol : ℚ) (reference : Ann) (hypothesis : List Seg) :
    List Seg × List Seg :=
  let filled := ((labelsOf reference).map fun l =>
    fillLabel tol (labelTimeline reference l)).flatten
  let cov := mergeCoverage filled
  (partitionT filled cov, partitionT hypothesis cov)

/-- The detail record of coverage/purity: total duration and intersection
duration. -/
structure DetailCvg where
  total : ℚ
  inter : ℚ
deriving DecidableEq

/-- `SegmentationCoverage._process`: co-occurrence matrix of the two atom
lists; total = sum of all cells, inter = sum over rows of the row maximum.
`none` models the `ValueError` numpy raises for `np.max` over the empty axis
(a nonempty row structure against an empty column structure). -/
def processCvg (reference hypothesis : List Seg) : Option DetailCvg :=
  if reference ≠ [] ∧ hypothesis = [] then none
  else
    let K := reference.map fun r => hypothesis.map fun h =>
      max 0 (min r.2 h.2 - max r.1 h.1)
    some ⟨(K.map fun row => row.sum).sum, (K.map fun row => row.foldr max 0).sum⟩

/-- `Annotation.get_timeline()`: the distinct segments, in sorted order. -/
def timelineOf (ann : Ann) : List Seg :=
  sortSegs (ann.map Prod.fst).dedup

/-- `SegmentationCoverage._get_details` (reference must be an Annotation;
an Annotation hypothesis is converted to its timeline by the caller). -/
def coverageDetails (tol : ℚ) (reference : Ann) (hypothesis : List Seg) :
    Option DetailCvg :=
  processCvg (preprocess tol reference hypothesis).1
    (preprocess tol reference hypothesis).2

/-- `SegmentationPurity._get_details`: same preprocessing, arguments of
`_process` swapped. -/
def purityDetails (tol : ℚ) (reference : Ann) (hypothesis : List Seg) :
    Option DetailCvg :=
  processCvg (preprocess tol reference hypothesis).2
    (preprocess tol reference hypothesis).1

/-- `SegmentationCoverage._get_rate`: intersection / total; `none` models
the `ZeroDivisionError` on a zero total duration. -/
def getRateCvg (d : DetailCvg) : Option ℚ :=
  if d.total = 0 then none else some (d.inter / d.total)

/-- Coverage rate of an (Annotation, Timeline) pair. -/
def coverageRate (tol : ℚ) (reference : Ann) (hypothesis : List Seg) : Option ℚ :=
  (coverageDetails tol reference hypothesis).bind getRateCvg

/-- Purity rate of an (Annotation, Timeline) pair. -/
def purityRate (tol : ℚ) (reference : Ann) (hypothesis : List Seg) : Option ℚ :=
  (purityDetails tol reference hypothesis).bind getRateCvg

/-! ## Helper lemmas for the greedy boundary-matching loop -/

theorem aminL_le_getD (d : List (WithTop ℚ)) (k : ℕ) : aminL d ≤ d.getD k ⊤ := by
  induction d generalizing k with
  | nil => simp [aminL]
  | cons x xs ih =>
    cases k with
    | zero => exact min_le_left x (aminL xs)
    | succ k =>
      calc aminL (x :: xs) ≤ aminL xs := min_le_right x (aminL xs)
        _ ≤ xs.getD k ⊤ := ih k
        _ = (x :: xs).getD (k + 1) ⊤ := rfl

theorem getD_argminL (d : List (WithTop ℚ)) : d.getD (argminL d) ⊤ = aminL d := by
  induction d with
  | nil => rfl
  | cons x xs ih =>
    by_cases h : x ≤ aminL xs
    · simp [argminL, aminL, h, min_eq_left h]
    · have h2 : aminL xs ≤ x := le_of_lt (lt_of_not_le h)
      have hstep : (x :: xs).getD (argminL xs + 1) ⊤ = xs.getD (argminL xs) ⊤ := rfl
      simp only [argminL, if_neg h]
      rw [hstep, ih]
      simp [aminL, min_eq_right h2]

theorem argminL_lt_length (d : List (WithTop ℚ)) (hne : d ≠ []) :
    argminL d < d.length := by
  induction d with
  | nil => exact absurd rfl hne
  | cons x xs ih =>
    by_cases h : x ≤ aminL xs
    · simp [argminL, h]
    · have hxs : xs ≠ [] := by
        intro he
        exact h (by simp [he, aminL])
      have := ih hxs
      simp only [argminL, if_neg h, List.length_cons]
      omega

theorem argminL_first (d : List (WithTop ℚ)) (k : ℕ) (hk : k < argminL d) :
    aminL d < d.getD k ⊤ := by
  induction d generalizing k with
  | nil => simp [argminL] at hk
  | cons x xs ih =>
    by_cases h : x ≤ aminL xs
    · simp [argminL, h] at hk
    · have h2 : aminL xs ≤ x := le_of_lt (lt_of_not_le h)
      have hmin : aminL (x :: xs) = aminL xs := by simp [aminL, min_eq_right h2]
      simp only [argminL, if_neg h] at hk
      cases k with
      | zero => simpa [hmin] using lt_of_not_le h
      | succ k =>
        have : aminL xs < xs.getD k ⊤ := ih k (by omega)
        simpa [hmin] using this

theorem length_maskRC (M i j s : ℕ) (d : List (WithTop ℚ)) :
    (maskRC M i j s d).length = d.length := by
  induction d generalizing s with
  | nil => rfl
  | cons x xs ih => simp [maskRC, ih]

theorem getD_maskRC (M i j s : ℕ) (d : List (WithTop ℚ)) (k : ℕ) :
    (maskRC M i j s d).getD k ⊤ =
      if (s + k) / M = i ∨ (s + k) % M = j then ⊤ else d.getD k ⊤ := by
  induction d generalizing s k with
  | nil =>
    simp only [maskRC, List.getD]
    split <;> rfl
  | cons x xs ih =>
    cases k with
    | zero => simp [maskRC]
    | succ k =>
      have := ih (s + 1) k
      have harith : s + 1 + k = s + (k + 1) := by omega
      simpa [maskRC, harith] using this

theorem length_buildDelta (refB hypB : List ℚ) :
    (buildDelta refB hypB).length = refB.length * hypB.length := by
  induction refB with
  | nil => simp [buildDelta]
  | cons rb rbs ih => simp [buildDelta, ih, Nat.succ_mul, Nat.add_comm]

theorem length_deltaMatrix (tol : ℚ) (refB hypB : List ℚ) :
    (deltaMatrix tol refB hypB).length = refB.length * hypB.length := by
  simp [deltaMatrix, maskTol, length_buildDelta]

theorem getD_absRow (rb : ℚ) (hypB : List ℚ) (h : ℕ) (hh : h < hypB.length) :
    ((hypB.map fun hb => |rb - hb|).getD h 0) = |rb - hypB.getD h 0| := by
  induction hypB generalizing h with
  | nil => simp at hh
  | cons b bs ih =>
    cases h with
    | zero => rfl
    | succ h =>
      have := ih h (by simpa using hh)
      simpa using this

theorem getD_buildDelta (refB hypB : List ℚ) (r h : ℕ)
    (hr : r < refB.length) (hh : h < hypB.length) :
    (buildDelta refB hypB).getD (r * hypB.length + h) 0
      = |refB.getD r 0 - hypB.getD h 0| := by
  induction refB generalizing r with
  | nil => simp at hr
  | cons rb rbs ih =>
    cases r with
    | zero =>
      have hlen : h < (hypB.map fun hb => |rb - hb|).length := by
        rw [List.length_map]; exact hh
      simp only [Nat.zero_mul, Nat.zero_add, buildDelta]
      rw [List.getD_append _ _ _ _ hlen]
      exact getD_absRow rb hypB h hh
    | succ r =>
      have hidx : (r + 1) * hypB.length + h
          = (hypB.map fun hb => |rb - hb|).length + (r * hypB.length + h) := by
        rw [List.length_map, Nat.succ_mul]; omega
      simp only [buildDelta]
      rw [hidx, List.getD_append_right _ _ _ _ (Nat.le_add_right _ _),
        Nat.add_sub_cancel_left]
      exact ih r (by simpa using hr)

theorem getD_maskTol (tol : ℚ) (base : List ℚ) (k : ℕ) (hk : k < base.length) :
    (maskTol tol base).getD k ⊤ =
      if tol < base.getD k 0 then ⊤ else ((base.getD k 0 : ℚ) : WithTop ℚ) := by
  induction base generalizing k with
  | nil => simp at hk
  | cons x xs ih =>
    cases k with
    | zero => rfl
    | succ k =>
      have := ih k (by simpa using hk)
      simpa [maskTol] using this

theorem cellsInv_deltaMatrix (tol : ℚ) (base : List ℚ) :
    CellsInv tol base (maskTol tol base) := by
  constructor
  · simp [maskTol]
  · intro k
    by_cases hk : k < base.length
    · rw [getD_maskTol tol base k hk]
      by_cases h : tol < base.getD k 0
      · left
        rw [if_pos h]
      · right
        exact ⟨by rw [if_neg h], not_lt.mp h⟩
    · left
      apply List.getD_eq_default
      simpa [maskTol] using not_lt.mp hk

theorem cellsInv_maskRC (tol : ℚ) (base : List ℚ) (d : List (WithTop ℚ)) (M i j : ℕ)
    (hinv : CellsInv tol base d) : CellsInv tol base (maskRC M i j 0 d) := by
  obtain ⟨hlen, hcell⟩ := hinv
  refine ⟨by rw [length_maskRC, hlen], fun k => ?_⟩
  rw [getD_maskRC]
  by_cases h : (0 + k) / M = i ∨ (0 + k) % M = j
  · left
    rw [if_pos h]
  · rw [if_neg h]
    exact hcell k

theorem cellsInv_selected_le_tol (tol : ℚ) (refB hypB : List ℚ)
    (d : List (WithTop ℚ)) (hinv : CellsInv tol (buildDelta refB hypB) d)
    (hlt : aminL d < ⊤) :
    |refB.getD (argminL d / hypB.length) 0
      - hypB.getD (argminL d % hypB.length) 0| ≤ tol := by
  obtain ⟨hlen, hcell⟩ := hinv
  have hne : d ≠ [] := by
    intro he
    rw [he] at hlt
    exact absurd hlt (by simp [aminL])
  have hk : argminL d < d.length := argminL_lt_length d hne
  have hsel : d.getD (argminL d) ⊤ = aminL d := getD_argminL d
  have hnetop : d.getD (argminL d) ⊤ ≠ ⊤ := by
    rw [hsel]
    exact ne_top_of_lt hlt
  rcases hcell (argminL d) with h | ⟨_, hle⟩
  · exact absurd h hnetop
  · have hbound : argminL d < refB.length * hypB.length := by
      rw [← length_buildDelta, ← hlen]
      exact hk
    have hM : 0 < hypB.length := by
      rcases Nat.eq_zero_or_pos hypB.length with h0 | h0
      · rw [h0, Nat.mul_zero] at hbound
        exact absurd hbound (Nat.not_lt_zero _)
      · exact h0
    have hr : argminL d / hypB.length < refB.length :=
      (Nat.div_lt_iff_lt_mul hM).mpr hbound
    have hh : argminL d % hypB.length < hypB.length := Nat.mod_lt _ hM
    have hsplit : argminL d / hypB.length * hypB.length + argminL d % hypB.length
        = argminL d := by
      rw [Nat.mul_comm]
      exact Nat.div_add_mod _ _
    have := getD_buildDelta refB hypB (argminL d / hypB.length)
      (argminL d % hypB.length) hr hh
    rw [hsplit] at this
    rw [← this]
    exact hle

theorem mem_finiteCells (d : List (WithTop ℚ)) (k : ℕ) :
    k ∈ finiteCells d ↔ k < d.length ∧ d.getD k ⊤ ≠ ⊤ := by
  simp [finiteCells]

theorem maskRC_kills (M i j : ℕ) (d : List (WithTop ℚ)) (k : ℕ)
    (hk : k / M = i ∨ k % M = j) : (maskRC M i j 0 d).getD k ⊤ = ⊤ := by
  rw [getD_maskRC]
  rw [if_pos (by simpa using hk)]

theorem finiteCells_maskRC_subset (M i j : ℕ) (d : List (WithTop ℚ)) :
    finiteCells (maskRC M i j 0 d) ⊆ finiteCells d := by
  intro k hk
  rw [mem_finiteCells] at hk ⊢
  rcases hk with ⟨hlen, hne⟩
  rw [length_maskRC] at hlen
  rw [getD_maskRC] at hne
  by_cases h : (0 + k) / M = i ∨ (0 + k) % M = j
  · rw [if_pos h] at hne
    exact absurd rfl hne
  · rw [if_neg h] at hne
    exact ⟨hlen, hne⟩

theorem finiteCells_maskRC_avoid (M i j : ℕ) (d : List (WithTop ℚ)) (k : ℕ)
    (hk : k ∈ finiteCells (maskRC M i j 0 d)) : ¬(k / M = i ∨ k % M = j) := by
  rw [mem_finiteCells] at hk
  intro hor
  exact hk.2 (maskRC_kills M i j d k hor)

theorem argminL_mem_finiteCells (d : List (WithTop ℚ)) (h : aminL d < ⊤) :
    argminL d ∈ finiteCells d := by
  have hne : d ≠ [] := by
    intro he
    rw [he] at h
    exact absurd h (by simp [aminL])
  rw [mem_finiteCells]
  refine ⟨argminL_lt_length d hne, ?_⟩
  rw [getD_argminL]
  exact ne_top_of_lt h

theorem countFinite_maskRC_lt (M : ℕ) (d : List (WithTop ℚ)) (h : aminL d < ⊤) :
    countFinite (maskRC M (argminL d / M) (argminL d % M) 0 d) < countFinite d := by
  apply Finset.card_lt_card
  rw [Finset.ssubset_iff_of_subset (finiteCells_maskRC_subset _ _ _ _)]
  refine ⟨argminL d, argminL_mem_finiteCells d h, ?_⟩
  intro hmem
  exact finiteCells_maskRC_avoid _ _ _ _ _ hmem (Or.inl rfl)

theorem matchLoopFuel_isSome (M : ℕ) :
    ∀ (fuel : ℕ) (d : List (WithTop ℚ)) (n : ℕ), countFinite d ≤ fuel →
      ∃ r, matchLoopFuel M fuel d n = some r := by
  intro fuel
  induction fuel with
  | zero =>
    intro d n hle
    by_cases h : aminL d < ⊤
    · exfalso
      have hpos : 0 < countFinite d :=
        Finset.card_pos.mpr ⟨_, argminL_mem_finiteCells d h⟩
      omega
    · exact ⟨n, by simp [matchLoopFuel, h]⟩
  | succ fuel ih =>
    intro d n hle
    by_cases h : aminL d < ⊤
    · have hlt := countFinite_maskRC_lt M d h
      obtain ⟨r, hr⟩ :=
        ih (maskRC M (argminL d / M) (argminL d % M) 0 d) (n + 1) (by omega)
      exact ⟨r, by simp [matchLoopFuel, h, hr]⟩
    · exact ⟨n, by simp [matchLoopFuel, h]⟩

theorem matchLoopFuel_ge (M : ℕ) :
    ∀ (fuel : ℕ) (d : List (WithTop ℚ)) (n r : ℕ),
      matchLoopFuel M fuel d n = some r → n ≤ r := by
  intro fuel
  induction fuel with
  | zero =>
    intro d n r h
    by_cases hc : aminL d < ⊤
    · simp [matchLoopFuel, hc] at h
    · simp [matchLoopFuel, hc] at h
      omega
  | succ fuel ih =>
    intro d n r h
    by_cases hc : aminL d < ⊤
    · simp only [matchLoopFuel, if_pos hc] at h
      have := ih _ _ _ h
      omega
    · simp [matchLoopFuel, hc] at h
      omega

theorem matchLoopFuel_le_image_card (M : ℕ) (f : ℕ → ℕ)
    (hf : ∀ (d : List (WithTop ℚ)) (k : ℕ), aminL d < ⊤ →
      k ∈ finiteCells (maskRC M (argminL d / M) (argminL d % M) 0 d) →
      f k ≠ f (argminL d)) :
    ∀ (fuel : ℕ) (d : List (WithTop ℚ)) (n r : ℕ),
      matchLoopFuel M fuel d n = some r →
      r ≤ n + ((finiteCells d).image f).card := by
  intro fuel
  induction fuel with
  | zero =>
    intro d n r h
    by_cases hc : aminL d < ⊤
    · simp [matchLoopFuel, hc] at h
    · simp [matchLoopFuel, hc] at h
      omega
  | succ fuel ih =>
    intro d n r h
    by_cases hc : aminL d < ⊤
    · simp only [matchLoopFuel, if_pos hc] at h
      have hrec := ih _ _ _ h
      have hmem : f (argminL d) ∈ (finiteCells d).image f :=
        Finset.mem_image_of_mem f (argminL_mem_finiteCells d hc)
      have hsub : (finiteCells (maskRC M (argminL d / M) (argminL d % M) 0 d)).image f
          ⊆ ((finiteCells d).image f).erase (f (argminL d)) := by
        intro x hx
        obtain ⟨k, hk, rfl⟩ := Finset.mem_image.mp hx
        refine Finset.mem_erase.mpr ⟨hf d k hc hk, ?_⟩
        exact Finset.mem_image_of_mem f (finiteCells_maskRC_subset _ _ _ _ hk)
      have hcard := Finset.card_le_card hsub
      rw [Finset.card_erase_of_mem hmem] at hcard
      have hpos : 0 < ((finiteCells d).image f).card :=
        Finset.card_pos.mpr ⟨_, hmem⟩
      omega
    · simp [matchLoopFuel, hc] at h
      omega

theorem card_image_div_le (d : List (WithTop ℚ)) (N M : ℕ) (hM : 0 < M)
    (hlen : d.length = N * M) : ((finiteCells d).image (· / M)).card ≤ N := by
  have hsub : (finiteCells d).image (· / M) ⊆ Finset.range N := by
    intro x hx
    obtain ⟨k, hk, rfl⟩ := Finset.mem_image.mp hx
    have hkl : k < N * M := by
      rw [← hlen]
      exact ((mem_finiteCells d k).mp hk).1
    exact Finset.mem_range.mpr ((Nat.div_lt_iff_lt_mul hM).mpr hkl)
  simpa using Finset.card_le_card hsub

theorem card_image_mod_le (d : List (WithTop ℚ)) (M : ℕ) (hM : 0 < M) :
    ((finiteCells d).image (· % M)).card ≤ M := by
  have hsub : (finiteCells d).image (· % M) ⊆ Finset.range M := by
    intro x hx
    obtain ⟨k, hk, rfl⟩ := Finset.mem_image.mp hx
    exact Finset.mem_range.mpr (Nat.mod_lt _ hM)
  simpa using Finset.card_le_card hsub

theorem rel_aminL (c : ℚ) (d1 d2 : List (WithTop ℚ))
    (hrel : List.Forall₂ (Rel c) d1 d2) :
    (aminL d1 ≤ (c : WithTop ℚ) → aminL d2 = aminL d1 ∧ argminL d2 = argminL d1)
    ∧ (¬ aminL d1 ≤ (c : WithTop ℚ) → aminL d1 = ⊤ ∧ ¬ aminL d2 ≤ (c : WithTop ℚ)) := by
  induction hrel with
  | nil =>
    refine ⟨fun h => absurd h (WithTop.not_top_le_coe c), fun h => ⟨rfl, ?_⟩⟩
    exact WithTop.not_top_le_coe c
  | @cons a b as bs ha htail ih =>
    obtain ⟨ha1, ha2⟩ := ha
    obtain ⟨ih1, ih2⟩ := ih
    constructor
    · intro h
      by_cases hx : a ≤ aminL as
      · have hmin1 : aminL (a :: as) = a := min_eq_left hx
        have ha_le : a ≤ (c : WithTop ℚ) := by
          rw [← hmin1]
          exact h
        have hb : b = a := ha1 ha_le
        by_cases hxs : aminL as ≤ (c : WithTop ℚ)
        · obtain ⟨hbs_eq, _⟩ := ih1 hxs
          have hble : b ≤ aminL bs := by
            rw [hb, hbs_eq]
            exact hx
          constructor
          · show min b (aminL bs) = min a (aminL as)
            rw [min_eq_left hble, min_eq_left hx, hb]
          · show (if b ≤ aminL bs then 0 else argminL bs + 1)
              = (if a ≤ aminL as then 0 else argminL as + 1)
            rw [if_pos hble, if_pos hx]
        · obtain ⟨hastop, hbs_nle⟩ := ih2 hxs
          have hble : b ≤ aminL bs := by
            rw [hb]
            exact le_of_lt (lt_of_le_of_lt ha_le (lt_of_not_le hbs_nle))
          constructor
          · show min b (aminL bs) = min a (aminL as)
            rw [min_eq_left hble, min_eq_left hx, hb]
          · show (if b ≤ aminL bs then 0 else argminL bs + 1)
              = (if a ≤ aminL as then 0 else argminL as + 1)
            rw [if_pos hble, if_pos hx]
      · have h2 : aminL as ≤ a := le_of_lt (lt_of_not_le hx)
        have hmin1 : aminL (a :: as) = aminL as := min_eq_right h2
        have hxs : aminL as ≤ (c : WithTop ℚ) := by
          rw [← hmin1]
          exact h
        obtain ⟨hbs_eq, hargs_eq⟩ := ih1 hxs
        have hnb : ¬ b ≤ aminL bs := by
          rw [hbs_eq]
          by_cases hac : a ≤ (c : WithTop ℚ)
          · rw [ha1 hac]
            exact hx
          · obtain ⟨_, hbnle⟩ := ha2 hac
            intro hble
            exact hbnle (le_trans hble hxs)
        constructor
        · show min b (aminL bs) = min a (aminL as)
          rw [min_eq_right (le_of_lt (lt_of_not_le hnb)), hbs_eq, min_eq_right h2]
        · show (if b ≤ aminL bs then 0 else argminL bs + 1)
            = (if a ≤ aminL as then 0 else argminL as + 1)
          rw [if_neg hnb, if_neg hx, hargs_eq]
    · intro h
      have hna : ¬ a ≤ (c : WithTop ℚ) := fun hac =>
        h (le_trans (min_le_left _ _) hac)
      have hnas : ¬ aminL as ≤ (c : WithTop ℚ) := fun hc =>
        h (le_trans (min_le_right _ _) hc)
      obtain ⟨hatop, hbnle⟩ := ha2 hna
      obtain ⟨hastop, hbsnle⟩ := ih2 hnas
      constructor
      · show min a (aminL as) = ⊤
        rw [hatop, hastop]
        exact min_self ⊤
      · show ¬ min b (aminL bs) ≤ (c : WithTop ℚ)
        intro hc
        rcases min_le_iff.mp hc with hcl | hcl
        · exact hbnle hcl
        · exact hbsnle hcl

theorem rel_maskTol (t1 t2 : ℚ) (hle : t1 ≤ t2) (base : List ℚ) :
    List.Forall₂ (Rel t1) (maskTol t1 base) (maskTol t2 base) := by
  induction base with
  | nil => exact List.Forall₂.nil
  | cons x xs ih =>
    refine List.Forall₂.cons ?_ ih
    show Rel t1 (if t1 < x then ⊤ else ((x : ℚ) : WithTop ℚ))
      (if t2 < x then ⊤ else ((x : ℚ) : WithTop ℚ))
    constructor
    · intro h
      by_cases h1 : t1 < x
      · rw [if_pos h1] at h
        exact absurd h (WithTop.not_top_le_coe t1)
      · rw [if_neg h1]
        rw [if_neg (not_lt.mpr (le_trans (not_lt.mp h1) hle))]
    · intro h
      by_cases h1 : t1 < x
      · refine ⟨by rw [if_pos h1], ?_⟩
        by_cases h2 : t2 < x
        · rw [if_pos h2]
          exact WithTop.not_top_le_coe t1
        · rw [if_neg h2]
          intro hcle
          exact absurd (WithTop.coe_le_coe.mp hcle) (not_le.mpr h1)
      · exfalso
        rw [if_neg h1] at h
        exact h (WithTop.coe_le_coe.mpr (not_lt.mp h1))

theorem rel_maskRC (c : ℚ) (M i j : ℕ) (d1 d2 : List (WithTop ℚ))
    (hrel : List.Forall₂ (Rel c) d1 d2) :
    ∀ s, List.Forall₂ (Rel c) (maskRC M i j s d1) (maskRC M i j s d2) := by
  induction hrel with
  | nil =>
    intro s
    exact List.Forall₂.nil
  | @cons a b as bs ha htail ih =>
    intro s
    simp only [maskRC]
    refine List.Forall₂.cons ?_ (ih (s + 1))
    by_cases hc : s / M = i ∨ s % M = j
    · rw [if_pos hc, if_pos hc]
      exact ⟨fun h => absurd h (WithTop.not_top_le_coe c),
        fun _ => ⟨rfl, WithTop.not_top_le_coe c⟩⟩
    · rw [if_neg hc, if_neg hc]
      exact ha

theorem matchLoopFuel_rel_le (c : ℚ) (M : ℕ) :
    ∀ (fuel1 fuel2 : ℕ) (d1 d2 : List (WithTop ℚ)) (n r1 r2 : ℕ),
      List.Forall₂ (Rel c) d1 d2 →
      matchLoopFuel M fuel1 d1 n = some r1 →
      matchLoopFuel M fuel2 d2 n = some r2 →
      r1 ≤ r2 := by
  intro fuel1
  induction fuel1 with
  | zero =>
    intro fuel2 d1 d2 n r1 r2 hrel h1 h2
    by_cases hc : aminL d1 < ⊤
    · simp [matchLoopFuel, hc] at h1
    · simp [matchLoopFuel, hc] at h1
      have := matchLoopFuel_ge M fuel2 d2 n r2 h2
      omega
  | succ fuel1 ih =>
    intro fuel2 d1 d2 n r1 r2 hrel h1 h2
    by_cases hc : aminL d1 < ⊤
    · have hle : aminL d1 ≤ (c : WithTop ℚ) := by
        by_contra hn
        have htop := ((rel_aminL c d1 d2 hrel).2 hn).1
        rw [htop] at hc
        exact lt_irrefl ⊤ hc
      obtain ⟨heqmin, heqarg⟩ := (rel_aminL c d1 d2 hrel).1 hle
      have hc2 : aminL d2 < ⊤ := by
        rw [heqmin]
        exact hc
      cases fuel2 with
      | zero => simp [matchLoopFuel, hc2] at h2
      | succ fuel2 =>
        simp only [matchLoopFuel, if_pos hc] at h1
        simp only [matchLoopFuel, if_pos hc2] at h2
        rw [heqarg] at h2
        exact ih fuel2 _ _ (n + 1) r1 r2
          (rel_maskRC c M (argminL d1 / M) (argminL d1 % M) d1 d2 hrel 0) h1 h2
    · simp [matchLoopFuel, hc] at h1
      have := matchLoopFuel_ge M fuel2 d2 n r2 h2
      omega

theorem contiguous_starts_subset (s : Seg) (rest : List Seg)
    (hc : Contiguous (s :: rest)) :
    ∀ x ∈ (s :: rest).map Prod.fst, x ∈ s.1 :: (s :: rest).map Prod.snd := by
  induction rest generalizing s with
  | nil =>
    intro x hx
    simp only [List.map_cons, List.map_nil, List.mem_singleton] at hx
    simp [hx]
  | cons t r2 ih =>
    obtain ⟨h1, h2, h3⟩ := hc
    intro x hx
    simp only [List.map_cons, List.mem_cons] at hx
    rcases hx with rfl | hx
    · simp
    · have hmem := ih t h3 x (by simpa using hx)
      simp only [List.mem_cons] at hmem
      simp only [List.map_cons, List.mem_cons]
      rcases hmem with rfl | hthis
      · exact Or.inr (Or.inl h2.symm)
      · simp only [List.map_cons, List.mem_cons] at hthis
        tauto

theorem contiguous_sorted_chain (s : Seg) (rest : List Seg)
    (hc : Contiguous (s :: rest)) :
    List.Sorted (· < ·) (s.1 :: (s :: rest).map Prod.snd) := by
  induction rest generalizing s with
  | nil =>
    simp only [List.map_cons, List.map_nil]
    exact List.sorted_cons.mpr ⟨by simpa using hc, List.sorted_singleton _⟩
  | cons t r2 ih =>
    obtain ⟨h1, h2, h3⟩ := hc
    have htail := ih t h3
    rw [← h2] at htail
    simp only [List.map_cons] at htail ⊢
    rw [List.sorted_cons]
    refine ⟨?_, htail⟩
    intro b hb
    have hcons := List.sorted_cons.mp htail
    simp only [List.mem_cons] at hb
    rcases hb with rfl | hb
    · exact h1
    · exact lt_trans h1 (hcons.1 b (by simpa using hb))

theorem contiguous_spec_eq_code_aux (s : Seg) (rest : List Seg)
    (hc : Contiguous (s :: rest)) :
    (((s :: rest).map Prod.fst ++ (s :: rest).map Prod.snd).dedup).insertionSort (· ≤ ·)
      = s.1 :: (s :: rest).map Prod.snd := by
  have hsorted := contiguous_sorted_chain s rest hc
  have hnodup : (s.1 :: (s :: rest).map Prod.snd).Nodup :=
    hsorted.imp ne_of_lt
  refine List.eq_of_perm_of_sorted ?_ (List.sorted_insertionSort _ _)
    (hsorted.imp le_of_lt)
  refine (List.perm_insertionSort _ _).trans ?_
  rw [List.perm_ext_iff_of_nodup (List.nodup_dedup _) hnodup]
  intro a
  simp only [List.mem_dedup, List.mem_append]
  constructor
  · rintro (ha | ha)
    · exact contiguous_starts_subset s rest hc a ha
    · exact List.mem_cons_of_mem _ ha
  · intro ha
    rcases List.mem_cons.mp ha with rfl | ha
    · left
      simp
    · right
      exact ha

theorem getDetails_doctest_eval : getDetails 0 refEx hypEx = some ⟨3, 2⟩ := by
  have hp : deltaMatrix 0 [1, 2] [1, 2, 3]
      = ([(0:ℚ), ⊤, ⊤, ⊤, (0:ℚ), ⊤] : List (WithTop ℚ)) := by
    norm_num [deltaMatrix, buildDelta, maskTol, abs_eq_max_neg, max_def]
  have hb : codeBoundaries refEx = [1, 2] := by decide
  have hb2 : codeBoundaries hypEx = [1, 2, 3] := by decide
  simp only [getDetails, hb, hb2, hp]
  decide

theorem recallDetails_doctest_eval : recallDetails 0 refEx hypEx = some ⟨2, 2⟩ := by
  have hr : deltaMatrix 0 [1, 2, 3] [1, 2]
      = ([(0:ℚ), ⊤, ⊤, (0:ℚ), ⊤, ⊤] : List (WithTop ℚ)) := by
    norm_num [deltaMatrix, buildDelta, maskTol, abs_eq_max_neg, max_def]
  have hb : codeBoundaries refEx = [1, 2] := by decide
  have hb2 : codeBoundaries hypEx = [1, 2, 3] := by decide
  simp only [recallDetails, getDetails, hb, hb2, hr]
  decide

/-- C5: with tolerance 0, on the doctest pair the precision detail record is
(boundaries 3, matches 2) with rate 2/3, and the recall detail record is
(boundaries 2, matches 2) with rate 1. -/
theorem doctest_example_rates :
    getDetails 0 refEx hypEx = some ⟨3, 2⟩ ∧
    precisionRate 0 refEx hypEx = some (2 / 3) ∧
    recallDetails 0 refEx hypEx = some ⟨2, 2⟩ ∧
    recallRate 0 refEx hypEx = some 1 := by
  refine ⟨getDetails_doctest_eval, ?_, recallDetails_doctest_eval, ?_⟩
  · rw [precisionRate, getDetails_doctest_eval]
    norm_num [Option.bind, getRate]
  · rw [recallRate, recallDetails_doctest_eval]
    norm_num [Option.bind, getRate]

/-- C6: `_get_rate` returns numerator/denominator for a positive boundary
count; for a zero boundary count it returns 1 when the match count is 0 and
raises (`none`) when the match count is nonzero. -/
theorem get_rate_cases (d : Detail) :
    (0 < d.boundaries → getRate d = some ((d.nMatches : ℚ) / (d.boundaries : ℚ)))
    ∧ (d.boundaries = 0 → d.nMatches = 0 → getRate d = some 1)
    ∧ (d.boundaries = 0 → d.nMatches ≠ 0 → getRate d = none) := by
  refine ⟨fun h => ?_, fun h h0 => ?_, fun h h0 => ?_⟩
  · have : d.boundaries ≠ 0 := by omega
    simp [getRate, this]
  · simp [getRate, h, h0]
  · simp [getRate, h, h0]

/-- Witness for C6 at concrete detail records ⟨3,2⟩, ⟨0,0⟩, ⟨0,5⟩. -/
theorem get_rate_cases_witness :
    getRate ⟨3, 2⟩ = some ((2 : ℚ) / 3) ∧ getRate ⟨0, 0⟩ = some 1 ∧
    getRate ⟨0, 5⟩ = none := by
  refine ⟨(get_rate_cases ⟨3, 2⟩).1 (by decide),
    (get_rate_cases ⟨0, 0⟩).2.1 rfl rfl,
    (get_rate_cases ⟨0, 5⟩).2.2 rfl (by decide)⟩

/-- C7 (code bug): an empty reference escapes the `M == 0 or N == 0` guard
(N is -1, not 0) and `np.zeros((-1, M))` raises, modelled as `none` — the
documented degenerate record is not returned; the single-interval cases of
the claim do hold, including the claim's concrete example: against reference
[0,1],[1,2],[2,4], the one-interval hypothesis [0,4] gives precision 1 and
recall 0. -/
theorem degenerate_inputs_behavior :
    getDetails 0 [] [(0, 1), (1, 2)] = none ∧
    getDetails 0 [(0, 1), (1, 2)] [] = none ∧
    getDetails 0 refEx [(0, 4)] = some ⟨0, 0⟩ ∧
    precisionRate 0 refEx [(0, 4)] = some 1 ∧
    recallDetails 0 refEx [(0, 4)] = some ⟨2, 0⟩ ∧
    recallRate 0 refEx [(0, 4)] = some 0 := by
  have hd2 : recallDetails 0 refEx [(0, 4)] = some ⟨2, 0⟩ := by decide
  refine ⟨by decide, by decide, by decide, by decide, hd2, ?_⟩
  rw [recallRate, hd2]
  norm_num [Option.bind, getRate]

/-- C1: in the boundary matcher, a boundary pair farther apart than the
tolerance is never matched. The invariant `CellsInv` — every cell is the
sentinel ⊤ or its original distance, which is then at most the tolerance —
holds for the initial masked matrix, is preserved by the row/column masking
done in each loop iteration, and under it the pair selected whenever the
loop guard `amin < inf` fires (row `argmin / M`, column `argmin % M`) has
absolute boundary distance at most the tolerance. -/
theorem matcher_never_matches_beyond_tolerance (tol : ℚ) (refB hypB : List ℚ) :
    CellsInv tol (buildDelta refB hypB) (deltaMatrix tol refB hypB)
    ∧ (∀ d i j, CellsInv tol (buildDelta refB hypB) d →
        CellsInv tol (buildDelta refB hypB) (maskRC hypB.length i j 0 d))
    ∧ (∀ d, CellsInv tol (buildDelta refB hypB) d → aminL d < ⊤ →
        |refB.getD (argminL d / hypB.length) 0
          - hypB.getD (argminL d % hypB.length) 0| ≤ tol) :=
  ⟨cellsInv_deltaMatrix tol (buildDelta refB hypB),
    fun d i j hinv => cellsInv_maskRC tol (buildDelta refB hypB) d hypB.length i j hinv,
    fun d hinv hlt => cellsInv_selected_le_tol tol refB hypB d hinv hlt⟩

/-- Witness for C1: reference boundaries [1], hypothesis boundaries [2],
tolerance 1; the single selected pair has distance 1 ≤ 1. -/
theorem matcher_never_matches_beyond_tolerance_witness :
    |([(1 : ℚ)].getD (argminL (deltaMatrix 1 [1] [2]) / 1) 0
      - [(2 : ℚ)].getD (argminL (deltaMatrix 1 [1] [2]) % 1) 0)| ≤ 1 := by
  have h := matcher_never_matches_beyond_tolerance 1 [1] [2]
  refine h.2.2 (deltaMatrix 1 [1] [2]) h.1 ?_
  have he : deltaMatrix 1 [1] [2] = [((1 : ℚ) : WithTop ℚ)] := by
    norm_num [deltaMatrix, buildDelta, maskTol, abs_eq_max_neg, max_def]
  rw [he]
  decide

/-- C2: `np.argmin` works on the row-major flattening, so in each round the
selected cell is first in row-major order among the cells attaining the
global minimum: the argmin is in range, attains the minimum, every earlier
flat cell is strictly above the minimum, and in (row, column) coordinates
every cell that is lexicographically earlier than (argmin / M, argmin % M)
is strictly above the minimum. The match count is then a deterministic
function of the inputs, since the embedding of `_get_details` is a pure
function of its arguments. -/
theorem argmin_rowmajor_tiebreak (d : List (WithTop ℚ)) (M : ℕ)
    (hne : d ≠ []) :
    argminL d < d.length
    ∧ d.getD (argminL d) ⊤ = aminL d
    ∧ (∀ k, k < argminL d → aminL d < d.getD k ⊤)
    ∧ (∀ r h, h < M →
        (r < argminL d / M ∨ (r = argminL d / M ∧ h < argminL d % M)) →
        aminL d < d.getD (r * M + h) ⊤) := by
  refine ⟨argminL_lt_length d hne, getD_argminL d, argminL_first d, ?_⟩
  intro r h hh hlex
  refine argminL_first d (r * M + h) ?_
  rcases hlex with hr | ⟨hr, hmod⟩
  · have h1 : (r + 1) * M ≤ argminL d / M * M := Nat.mul_le_mul_right M hr
    have h2 : argminL d / M * M ≤ argminL d := Nat.div_mul_le_self _ _
    have h3 : r * M + h < (r + 1) * M := by
      rw [Nat.succ_mul]
      omega
    omega
  · have h2 : argminL d / M * M + argminL d % M = argminL d := by
      rw [Nat.mul_comm]
      exact Nat.div_add_mod _ _
    subst hr
    omega

/-- Witness for C2: on the flattened 1×3 matrix [1, 0, 0] with a tie between
flat cells 1 and 2, the argmin is cell 1 (the row-major-first minimum), and
the earlier cell 0 is strictly above the minimum. -/
theorem argmin_rowmajor_tiebreak_witness :
    argminL ([(1 : ℚ), (0 : ℚ), (0 : ℚ)] : List (WithTop ℚ)) = 1
    ∧ ([(1 : ℚ), (0 : ℚ), (0 : ℚ)] : List (WithTop ℚ)).getD
        (argminL ([(1 : ℚ), (0 : ℚ), (0 : ℚ)] : List (WithTop ℚ))) ⊤
        = aminL ([(1 : ℚ), (0 : ℚ), (0 : ℚ)] : List (WithTop ℚ))
    ∧ aminL ([(1 : ℚ), (0 : ℚ), (0 : ℚ)] : List (WithTop ℚ))
        < ([(1 : ℚ), (0 : ℚ), (0 : ℚ)] : List (WithTop ℚ)).getD 0 ⊤ := by
  have h := argmin_rowmajor_tiebreak
    ([(1 : ℚ), (0 : ℚ), (0 : ℚ)] : List (WithTop ℚ)) 3 (by decide)
  exact ⟨by decide, h.2.1, h.2.2.1 0 (by decide)⟩

/-- C8: on any pair of nonempty timelines the greedy loop terminates — run
with fuel `countFinite`, the strictly decreasing count of finite entries, it
always produces a result — and the match count never exceeds
min(N, M) = min(len(reference) - 1, len(hypothesis) - 1), because every
iteration retires one whole row and one whole column. -/
theorem greedy_loop_terminates_and_bounded (tol : ℚ)
    (reference hypothesis : List Seg)
    (href : 1 ≤ reference.length) (hhyp : 1 ≤ hypothesis.length) :
    (getDetails tol reference hypothesis).isSome = true
    ∧ ∀ det, getDetails tol reference hypothesis = some det →
        det.nMatches ≤ min (reference.length - 1) (hypothesis.length - 1) := by
  simp only [getDetails]
  split_ifs with h1 h2
  · exact ⟨rfl, fun det hdet => by
      cases hdet
      exact Nat.zero_le _⟩
  · exfalso
    omega
  · have hlenr : (codeBoundaries reference).length = reference.length - 1 := by
      simp [codeBoundaries]
    have hlenh : (codeBoundaries hypothesis).length = hypothesis.length - 1 := by
      simp [codeBoundaries]
    have hM : 0 < (codeBoundaries hypothesis).length := by
      rw [hlenh]
      omega
    obtain ⟨r, hr⟩ := matchLoopFuel_isSome (codeBoundaries hypothesis).length
      (countFinite (deltaMatrix tol (codeBoundaries reference) (codeBoundaries hypothesis)))
      (deltaMatrix tol (codeBoundaries reference) (codeBoundaries hypothesis)) 0 le_rfl
    rw [hr]
    have hfdiv : ∀ (d : List (WithTop ℚ)) (k : ℕ), aminL d < ⊤ →
        k ∈ finiteCells (maskRC (codeBoundaries hypothesis).length
          (argminL d / (codeBoundaries hypothesis).length)
          (argminL d % (codeBoundaries hypothesis).length) 0 d) →
        k / (codeBoundaries hypothesis).length
          ≠ argminL d / (codeBoundaries hypothesis).length := by
      intro d k hlt hk heq
      exact finiteCells_maskRC_avoid _ _ _ _ _ hk (Or.inl heq)
    have hfmod : ∀ (d : List (WithTop ℚ)) (k : ℕ), aminL d < ⊤ →
        k ∈ finiteCells (maskRC (codeBoundaries hypothesis).length
          (argminL d / (codeBoundaries hypothesis).length)
          (argminL d % (codeBoundaries hypothesis).length) 0 d) →
        k % (codeBoundaries hypothesis).length
          ≠ argminL d % (codeBoundaries hypothesis).length := by
      intro d k hlt hk heq
      exact finiteCells_maskRC_avoid _ _ _ _ _ hk (Or.inr heq)
    have hdiv := matchLoopFuel_le_image_card (codeBoundaries hypothesis).length
      (· / (codeBoundaries hypothesis).length) hfdiv _ _ _ _ hr
    have hmod := matchLoopFuel_le_image_card (codeBoundaries hypothesis).length
      (· % (codeBoundaries hypothesis).length) hfmod _ _ _ _ hr
    have hlen := length_deltaMatrix tol (codeBoundaries reference)
      (codeBoundaries hypothesis)
    have hbr := card_image_div_le
      (deltaMatrix tol (codeBoundaries reference) (codeBoundaries hypothesis))
      (codeBoundaries reference).length (codeBoundaries hypothesis).length hM hlen
    have hbh := card_image_mod_le
      (deltaMatrix tol (codeBoundaries reference) (codeBoundaries hypothesis))
      (codeBoundaries hypothesis).length hM
    refine ⟨rfl, fun det hdet => ?_⟩
    have hdet2 : det = ⟨(hypothesis.length : ℤ) - 1, r⟩ := by
      simpa using hdet.symm
    rw [hdet2]
    show r ≤ min (reference.length - 1) (hypothesis.length - 1)
    omega

/-- Witness for C8 on the doctest pair. -/
theorem greedy_loop_terminates_and_bounded_witness :
    (getDetails 0 refEx hypEx).isSome = true
    ∧ (⟨3, 2⟩ : Detail).nMatches ≤ min (refEx.length - 1) (hypEx.length - 1) := by
  have h := greedy_loop_terminates_and_bounded 0 refEx hypEx (by decide) (by decide)
  exact ⟨h.1, h.2 ⟨3, 2⟩ getDetails_doctest_eval⟩

theorem getDetails_doctest_tol1_eval : getDetails 1 refEx hypEx = some ⟨3, 2⟩ := by
  have hp : deltaMatrix 1 [1, 2] [1, 2, 3]
      = ([(0:ℚ), (1:ℚ), ⊤, (1:ℚ), (0:ℚ), (1:ℚ)] : List (WithTop ℚ)) := by
    norm_num [deltaMatrix, buildDelta, maskTol, abs_eq_max_neg, max_def]
  have hb : codeBoundaries refEx = [1, 2] := by decide
  have hb2 : codeBoundaries hypEx = [1, 2, 3] := by decide
  simp only [getDetails, hb, hb2, hp]
  decide

/-- C9: for a fixed reference/hypothesis pair, the match count produced by
`_get_details` is monotonically non-decreasing in the tolerance, and the
boundary-count denominator does not depend on the tolerance at all: the
matrix at the smaller tolerance is the matrix at the larger one with some
extra cells masked, and the greedy loop then runs in lockstep until the
smaller-tolerance run exhausts its matchable cells first. -/
theorem match_count_monotone_in_tolerance (t1 t2 : ℚ) (hle : t1 ≤ t2)
    (reference hypothesis : List Seg) (d1 d2 : Detail)
    (h1 : getDetails t1 reference hypothesis = some d1)
    (h2 : getDetails t2 reference hypothesis = some d2) :
    d1.nMatches ≤ d2.nMatches ∧ d1.boundaries = d2.boundaries := by
  simp only [getDetails] at h1 h2
  split_ifs at h1 h2 with hg1 hg2
  · obtain rfl := Option.some.inj h1
    obtain rfl := Option.some.inj h2
    exact ⟨le_refl _, rfl⟩
  · obtain ⟨r1, hr1, hd1⟩ := Option.map_eq_some'.mp h1
    obtain ⟨r2, hr2, hd2⟩ := Option.map_eq_some'.mp h2
    have hrel : List.Forall₂ (Rel t1)
        (deltaMatrix t1 (codeBoundaries reference) (codeBoundaries hypothesis))
        (deltaMatrix t2 (codeBoundaries reference) (codeBoundaries hypothesis)) :=
      rel_maskTol t1 t2 hle
        (buildDelta (codeBoundaries reference) (codeBoundaries hypothesis))
    have hmono := matchLoopFuel_rel_le t1 (codeBoundaries hypothesis).length
      _ _ _ _ 0 r1 r2 hrel hr1 hr2
    rw [← hd1, ← hd2]
    exact ⟨hmono, rfl⟩

/-- Witness for C9: tolerances 0 ≤ 1 on the doctest pair, both runs giving
the record (boundaries 3, matches 2). -/
theorem match_count_monotone_in_tolerance_witness :
    (0 : ℚ) ≤ 1
    ∧ (⟨3, 2⟩ : Detail).nMatches ≤ (⟨3, 2⟩ : Detail).nMatches
    ∧ (⟨3, 2⟩ : Detail).boundaries = (⟨3, 2⟩ : Detail).boundaries :=
  ⟨by norm_num,
    match_count_monotone_in_tolerance 0 1 (by norm_num) refEx hypEx ⟨3, 2⟩ ⟨3, 2⟩
      getDetails_doctest_eval getDetails_doctest_tol1_eval⟩

/-- Counterexample to C3: on the gapped timeline [0,1],[2,3] the code feeds
the matcher only the non-final segment ends [1] (so M = 1), while the spec's
interior endpoints ("all endpoints except the very first start and very last
end") are [1, 2]: the gap start 2 is an interior endpoint the code never
counts. Observable: against reference [0,1],[1,2], the boundary count in the
detail record is 1, not 2. -/
theorem code_boundaries_ne_spec_on_gapped :
    codeBoundaries [((0 : ℚ), 1), (2, 3)] = [1]
    ∧ specInteriorBoundaries [((0 : ℚ), 1), (2, 3)] = [1, 2]
    ∧ codeBoundaries [((0 : ℚ), 1), (2, 3)]
        ≠ specInteriorBoundaries [((0 : ℚ), 1), (2, 3)]
    ∧ getDetails 0 [((0 : ℚ), 1), (1, 2)] [(0, 1), (2, 3)] = some ⟨1, 1⟩ := by
  have hd : deltaMatrix 0 [1] [1] = [((0 : ℚ) : WithTop ℚ)] := by
    norm_num [deltaMatrix, buildDelta, maskTol, abs_eq_max_neg, max_def]
  have hb1 : codeBoundaries [((0 : ℚ), 1), (1, 2)] = [1] := by decide
  have hb2 : codeBoundaries [((0 : ℚ), 1), (2, 3)] = [1] := by decide
  refine ⟨by decide, by decide, by decide, ?_⟩
  simp only [getDetails, hb1, hb2, hd]
  decide

/-- C3 as amended: the boundary sequences fed to the matcher are each
structure's segment end times except the last one, and N and M are the
segment counts minus one; for contiguous (gapless) structures this coincides
exactly with the spec's "all interval endpoints except the very first start
and the very last end, in increasing time order", but for structures with
gaps the segment starts that are not a preceding segment's end are NOT
counted as boundaries. -/
theorem spec_boundaries_eq_code_on_contiguous (tl : List Seg)
    (hc : Contiguous tl) : specInteriorBoundaries tl = codeBoundaries tl := by
  cases tl with
  | nil => rfl
  | cons s rest =>
    show ((((s :: rest).map Prod.fst ++ (s :: rest).map Prod.snd).dedup.insertionSort
      (· ≤ ·)).drop 1).dropLast = codeBoundaries (s :: rest)
    rw [contiguous_spec_eq_code_aux s rest hc]
    rfl

/-- Witness for C3 (amended) on the contiguous doctest reference. -/
theorem spec_boundaries_eq_code_on_contiguous_witness :
    Contiguous refEx ∧ specInteriorBoundaries refEx = codeBoundaries refEx :=
  ⟨by norm_num [Contiguous, refEx],
    spec_boundaries_eq_code_on_contiguous refEx (by norm_num [Contiguous, refEx])⟩

/-- C10: the Gap Filler merges two same-label segments exactly when the gap
between them has duration strictly less than the tolerance; a gap equal to
the tolerance is left open. Stated for an arbitrary two-segment sub-collection
[a,b], [c,d] with a < b < c < d. -/
theorem gap_filler_closes_iff (tol a b c d : ℚ)
    (hab : a < b) (hbc : b < c) (hcd : c < d) :
    fillLabel tol [(a, b), (c, d)]
      = if c - b < tol then [(a, d)] else [(a, b), (c, d)] := by
  have hac : a < c := lt_trans hab hbc
  have hncb : ¬ c ≤ b := not_le.mpr hbc
  have hncb2 : ¬ c < b := not_lt.mpr (le_of_lt hbc)
  have hcneb : c ≠ b := ne_of_gt hbc
  have hmaxbc : max b c = c := max_eq_right (le_of_lt hbc)
  have hmaxcd : max c d = d := max_eq_right (le_of_lt hcd)
  by_cases hgap : c - b < tol
  · rw [if_pos hgap]
    simp [fillLabel, gapsOf, mergeCoverage, sortSegs, mergeGo, gapsGo, segLe,
      List.insertionSort, List.orderedInsert, hab, hac, hncb, hncb2, hcneb,
      hgap, hmaxbc, hmaxcd]
  · rw [if_neg hgap]
    simp [fillLabel, gapsOf, mergeCoverage, sortSegs, mergeGo, gapsGo, segLe,
      List.insertionSort, List.orderedInsert, hab, hac, hncb, hncb2, hcneb,
      hgap, hmaxbc, hmaxcd]

/-- Witness for C10: the spec's concrete example — same-label intervals
[0,1] and [1.2,2] with tolerance 0.5 are filled into the single interval
[0,2]; and with tolerance exactly the gap duration 0.2 the gap is NOT
closed. -/
theorem gap_filler_closes_iff_witness :
    fillLabel (1 / 2) [((0 : ℚ), 1), (6 / 5, 2)] = [(0, 2)]
    ∧ fillLabel (1 / 5) [((0 : ℚ), 1), (6 / 5, 2)]
        = [((0 : ℚ), 1), (6 / 5, 2)] := by
  constructor
  · have h := gap_filler_closes_iff (1 / 2) 0 1 (6 / 5) 2
      (by norm_num) (by norm_num) (by norm_num)
    rw [h, if_pos (by norm_num)]
  · have h := gap_filler_closes_iff (1 / 5) 0 1 (6 / 5) 2
      (by norm_num) (by norm_num) (by norm_num)
    rw [h, if_neg (by norm_num)]

/-- C4 as amended: the duality `Coverage(R,H) = Purity(H,R)` holds exactly
when reference-side preprocessing commutes with the argument swap, i.e. when
`preprocess(H, R)` produces the swapped partition pair of `preprocess(R, H)`;
the scorer itself is invoked on swapped partitions, so the rates then agree.
In general the equality fails, because `_preprocess` gap-fills and merges
per-label coverage of its reference argument only. -/
theorem coverage_purity_swap (tol : ℚ) (R H : Ann)
    (h1 : (preprocess tol R (timelineOf H)).1 = (preprocess tol H (timelineOf R)).2)
    (h2 : (preprocess tol R (timelineOf H)).2 = (preprocess tol H (timelineOf R)).1) :
    coverageRate tol R (timelineOf H) = purityRate tol H (timelineOf R) := by
  rw [coverageRate, purityRate, coverageDetails, purityDetails, h1, h2]

/-- Counterexample to C4 as stated: R = single interval [0,2] labelled 0,
H = touching same-label intervals [0,1], [1,2]; with tolerance 0,
Coverage(R,H) = 1/2 but Purity(H,R) = 1, because preprocessing H as the
reference merges its touching same-label intervals into [0,2] and the
hypothesis boundary at t = 1 disappears. -/
theorem coverage_purity_not_dual :
    coverageRate 0 [(((0 : ℚ), 2), 0)] (timelineOf [(((0 : ℚ), 1), 0), ((1, 2), 0)])
      = some (1 / 2)
    ∧ purityRate 0 [(((0 : ℚ), 1), 0), ((1, 2), 0)] (timelineOf [(((0 : ℚ), 2), 0)])
      = some 1
    ∧ some ((1 : ℚ) / 2) ≠ some (1 : ℚ) := by
  have htl1 : timelineOf [(((0 : ℚ), 1), 0), ((1, 2), 0)] = [((0 : ℚ), 1), (1, 2)] := by
    norm_num [timelineOf, sortSegs, List.insertionSort, List.orderedInsert, segLe,
      Prod.ext_iff]
  have htl2 : timelineOf [(((0 : ℚ), 2), 0)] = [((0 : ℚ), 2)] := by
    norm_num [timelineOf, sortSegs, List.insertionSort, List.orderedInsert, segLe]
  have hpre1 : preprocess 0 [(((0 : ℚ), 2), 0)] [((0 : ℚ), 1), (1, 2)]
      = ([((0 : ℚ), 2)], [((0 : ℚ), 1), (1, 2)]) := by
    norm_num [preprocess, labelsOf, labelTimeline, fillLabel, gapsOf, gapsGo,
      mergeCoverage, mergeGo, sortSegs, partitionT, boundariesOf, pairwiseSegs,
      cropT, cropSeg, segInter, List.insertionSort, List.orderedInsert, segLe,
      min_def, max_def, Prod.ext_iff]
  have hpre2 : preprocess 0 [(((0 : ℚ), 1), 0), ((1, 2), 0)] [((0 : ℚ), 2)]
      = ([((0 : ℚ), 2)], [((0 : ℚ), 2)]) := by
    norm_num [preprocess, labelsOf, labelTimeline, fillLabel, gapsOf, gapsGo,
      mergeCoverage, mergeGo, sortSegs, partitionT, boundariesOf, pairwiseSegs,
      cropT, cropSeg, segInter, List.insertionSort, List.orderedInsert, segLe,
      min_def, max_def, Prod.ext_iff]
  have hcd : coverageDetails 0 [(((0 : ℚ), 2), 0)] [((0 : ℚ), 1), (1, 2)]
      = some ⟨2, 1⟩ := by
    rw [coverageDetails, hpre1]
    norm_num [processCvg, min_def, max_def, DetailCvg.mk.injEq, List.cons_ne_nil]
  have hpd : purityDetails 0 [(((0 : ℚ), 1), 0), ((1, 2), 0)] [((0 : ℚ), 2)]
      = some ⟨2, 2⟩ := by
    rw [purityDetails, hpre2]
    norm_num [processCvg, min_def, max_def, DetailCvg.mk.injEq, List.cons_ne_nil]
  refine ⟨?_, ?_, by norm_num⟩
  · rw [coverageRate, htl1, hcd]
    norm_num [Option.bind, getRateCvg]
  · rw [purityRate, htl2, hpd]
    norm_num [Option.bind, getRateCvg]

/-- Witness for C4 (amended): with distinct, non-touching labels —
R = [0,2] labelled 0, H = [0,1] labelled 0 and [1,2] labelled 1 —
preprocessing commutes with the swap and Coverage(R,H) = Purity(H,R). -/
theorem coverage_purity_swap_witness :
    coverageRate 0 [(((0 : ℚ), 2), 0)] (timelineOf [(((0 : ℚ), 1), 0), ((1, 2), 1)])
      = purityRate 0 [(((0 : ℚ), 1), 0), ((1, 2), 1)] (timelineOf [(((0 : ℚ), 2), 0)]) := by
  apply coverage_purity_swap
  · norm_num [preprocess, labelsOf, labelTimeline, fillLabel, gapsOf, gapsGo,
      mergeCoverage, mergeGo, sortSegs, partitionT, boundariesOf, pairwiseSegs,
      cropT, cropSeg, segInter, timelineOf, List.insertionSort, List.orderedInsert,
      segLe, min_def, max_def, Prod.ext_iff]
  · norm_num [preprocess, labelsOf, labelTimeline, fillLabel, gapsOf, gapsGo,
      mergeCoverage, mergeGo, sortSegs, partitionT, boundariesOf, pairwiseSegs,
      cropT, cropSeg, segInter, timelineOf, List.insertionSort, List.orderedInsert,
      segLe, min_def, max_def, Prod.ext_iff]

end PyannoteSeg
